import Mathlib

/-!
A verification development for the synchronization subsystem of the
`zulip-client` repository (TypeScript sources under `src/`).

The embedding translates:
  * `src/api/client.ts` — the Zulip API client (`request`, `getTopicMessages`);
  * `src/storage/database.ts` — the SQLite store operations
    (`insertMessages`, `getTopicLastMessageId`, `updateTopicLastMessageId`,
    `clearUnreadMessages`, `insertUnreadMessages`, `getUnreadTopics`);
  * `src/cli/sync.ts` — the per-site sync pass (`syncSite`) and the
    multi-site driver (`syncCommand`);
  * `src/cli/unread.ts` — the unread summary command (`showUnreadForSite`).

Machine integers of the source are modelled as `Nat` (Zulip message
identifiers, stream identifiers and timestamps are non-negative and far
below any overflow boundary; no arithmetic in the translated code can
overflow a JavaScript number for realistic identifiers, and none of the
verified properties depend on overflow behaviour).

The remote Zulip server itself is an external collaborator of the
repository (it is not code of the repository); `listMessages` below is a
model of its `GET /messages` endpoint, following the documented Zulip
anchor semantics that the client code relies on (the response contains
the anchor message when it exists, plus up to `num_after` later
messages, and `found_newest` reports whether the newest matching message
is part of the response).
-/

/-- A Zulip message as the client sees it (`ZulipMessage` in
`src/api/types.ts`); only the fields the sync subsystem reads are kept. -/
structure ZulipMessage where
  id : Nat
  senderFullName : String
  senderEmail : String
  content : String
  timestamp : Nat
deriving Repr, DecidableEq

/-- The part of a `GET /messages` response the pagination loop consumes
(`GetMessagesResponse` in `src/api/types.ts`). -/
structure MessagesResponse where
  messages : List ZulipMessage
  foundNewest : Bool
deriving Repr, DecidableEq

/-- The anchor parameter of a message fetch: `none` models the string
anchor `oldest`, `some a` a numeric anchor. -/
abbrev MsgAnchor := Option Nat

/-- Model of the external Zulip `GET /messages` endpoint for a fixed
(stream, topic) narrow whose full remote history is `remote` (listed in
increasing message-id order).  With `num_before = 0`, Zulip returns the
anchor message itself when it exists (not counted against `num_after`)
plus up to `num_after` messages after it; `found_newest` is true exactly
when the newest matching message is included.  The remote service is an
external collaborator of the repository, so this definition is a model
of its documented interface rather than a translation of repository
code. -/
def listMessages (remote : List ZulipMessage) (anchor : MsgAnchor) (numAfter : Nat) :
    MessagesResponse :=
  match anchor with
  | none =>
      let returned := remote.take (numAfter + 1)
      ⟨returned, decide (returned.length = remote.length)⟩
  | some a =>
      let after := remote.filter (fun m => a ≤ m.id)
      let cnt := if after.any (fun m => m.id = a) then numAfter + 1 else numAfter
      let returned := after.take cnt
      ⟨returned, decide (returned.length = after.length)⟩

/-- The fixed page size of the pagination loop
(`const batchSize = 1000` in `src/api/client.ts:139`). -/
def batchSize : Nat := 1000

/-- A placeholder message used only as the default of `List.getLastD`
in a branch where the list is known to be non-empty (the source indexes
`newMessages[newMessages.length - 1]`). -/
def dummyMessage : ZulipMessage := ⟨0, "", "", "", 0⟩

/-- The `while (true)` pagination loop body of `getTopicMessages`
(`src/api/client.ts:141-173`), written with explicit fuel; `remote` is
the conversation's full remote history, `anchor` the current anchor,
`acc` the `allMessages` accumulator, and `reqs` counts issued requests.
With fuel larger than the number of remote messages the fuel case is
never reached (each recursive step strictly shrinks the set of remote
messages beyond the anchor). -/
def goFetch (remote : List ZulipMessage) :
    Nat → MsgAnchor → List ZulipMessage → Nat → List ZulipMessage × Nat
  | 0, _, acc, reqs => (acc, reqs)
  | fuel + 1, anchor, acc, reqs =>
      let response := listMessages remote anchor batchSize
      let newMessages :=
        match anchor with
        | some a => response.messages.filter (fun m => a < m.id)
        | none => response.messages
      if newMessages.isEmpty then (acc, reqs + 1)
      else
        let acc2 := acc ++ newMessages
        if response.foundNewest || decide (newMessages.length < batchSize) then
          (acc2, reqs + 1)
        else
          goFetch remote fuel (some (newMessages.getLastD dummyMessage).id) acc2 (reqs + 1)

/-- The initial anchor of `getTopicMessages`
(`src/api/client.ts:138`): `options.afterMessageId ? options.afterMessageId + 1 :
'oldest'`.  JavaScript truthiness makes `afterMessageId = 0` fall back to
`oldest`. -/
def initialAnchor (afterMessageId : Option Nat) : MsgAnchor :=
  match afterMessageId with
  | some w => if w = 0 then none else some (w + 1)
  | none => none

/-- `getTopicMessages` of `src/api/client.ts:127-180` for one
conversation with remote history `remote`: the accumulated message list
together with the number of `GET /messages` requests issued. -/
def getTopicMessages (remote : List ZulipMessage) (afterMessageId : Option Nat) :
    List ZulipMessage × Nat :=
  goFetch remote (remote.length + 1) (initialAnchor afterMessageId) [] 0

/-- Message identifiers of a stored row list. -/
def idsOf (l : List ZulipMessage) : List Nat := l.map (fun m => m.id)

/-- One iteration of the insert loop of `insertMessages`
(`src/storage/database.ts:345-370`): `INSERT OR IGNORE` under the
`UNIQUE(topic_id, message_id)` constraint appends the message when its
identifier is not yet present and counts the row as inserted
(`result.changes > 0`); an exact-identifier duplicate is ignored. -/
def insertStep (acc : List ZulipMessage × Nat) (m : ZulipMessage) :
    List ZulipMessage × Nat :=
  if acc.1.any (fun m2 => m2.id = m.id) then acc else (acc.1 ++ [m], acc.2 + 1)

/-- `insertMessages` of `src/storage/database.ts:336-374` restricted to one
topic: the batch is inserted row by row inside one transaction and the
number of rows actually inserted is returned. -/
def insertMessages (stored : List ZulipMessage) (batch : List ZulipMessage) :
    List ZulipMessage × Nat :=
  batch.foldl insertStep (stored, 0)

/-- `Math.max(...messages.map(m => m.id))` over a batch
(`src/cli/sync.ts`, guarded there by `messages.length > 0`). -/
def maxIdOf (l : List ZulipMessage) : Nat :=
  (idsOf l).foldl max 0

/-- The per-topic rows of the store: the `topics.last_message_id` column
and the topic's rows of the `messages` table (`schema.ts`). -/
structure TopicState where
  lastMessageId : Option Nat
  msgs : List ZulipMessage
deriving Repr, DecidableEq

/-- A conversation key: (Zulip stream identifier, topic name), the unit
the sync pass plans over (`getUnreadTopics` groups by stream and topic). -/
abbrev ConvKey := Nat × String

/-- The message/watermark part of the store, one `TopicState` per
conversation key; absent rows are the freshly-created state
(`getOrCreateTopic` initializes `last_message_id` to NULL, no messages). -/
def TopicMap := ConvKey → TopicState

/-- The empty store: every topic row absent. -/
def emptyTopicMap : TopicMap := fun _ => ⟨none, []⟩

/-- Point update of the store at one conversation key. -/
def updateTopic (s : TopicMap) (k : ConvKey) (t : TopicState) : TopicMap :=
  fun k2 => if k2 = k then t else s k2

/-- JavaScript truthiness of `lastMessageId || undefined`
(`src/cli/sync.ts:88`): `null` and `0` both become `undefined`. -/
def jsOrUndefined (o : Option Nat) : Option Nat :=
  match o with
  | some w => if w = 0 then none else some w
  | none => none

/-- The body of the `if (messages.length > 0)` block of `syncSite`
(`src/cli/sync.ts:92-99`) for one topic: insert the fetched batch, count
the insertions, and set `topics.last_message_id` to the maximum fetched
identifier; with no fetched messages nothing is written. -/
def mergeFetched (st : TopicState) (fetched : List ZulipMessage) : TopicState × Nat :=
  if fetched.isEmpty then (st, 0)
  else
    let ins := insertMessages st.msgs fetched
    (⟨some (maxIdOf fetched), ins.1⟩, ins.2)

/-- One iteration of the `for (const topic of unreadTopics)` loop of
`syncSite` (`src/cli/sync.ts:71-121`) when the network is reliable:
read the watermark, fetch incrementally, merge. -/
def syncTopic (remote : List ZulipMessage) (st : TopicState) : TopicState × Nat :=
  let fetched := (getTopicMessages remote (jsOrUndefined st.lastMessageId)).1
  mergeFetched st fetched

/-- An unread-state entry for one conversation as returned by
`register()` (`UnreadStreamInfo` in `src/api/types.ts`). -/
structure UnreadStreamInfo where
  streamId : Nat
  topic : String
  unreadMessageIds : List Nat
deriving Repr, DecidableEq

/-- The planned conversations of a pass: `getUnreadTopics` reads back the
`unread_messages` rows just written from the register response and
groups them by (stream, topic); entries with no unread message ids
produce no rows, and grouping keeps one key per conversation. -/
def plannedTopics (unreads : List UnreadStreamInfo) : List ConvKey :=
  ((unreads.filter (fun u => !u.unreadMessageIds.isEmpty)).map
    (fun u => (u.streamId, u.topic))).dedup

/-- The fetch/merge loop of `syncSite` (`src/cli/sync.ts:71-121`) over the
planned conversations, with the remote history of each conversation
given by `remote`; returns the updated store and `totalNewMessages`.
Failure-free projection: network outcomes are modelled separately by
`runTopics`. -/
def runTopicsFold (remote : ConvKey → List ZulipMessage) :
    List ConvKey → TopicMap × Nat → TopicMap × Nat
  | [], acc => acc
  | k :: rest, acc =>
      runTopicsFold remote rest
        (updateTopic acc.1 k (syncTopic (remote k) (acc.1 k)).1,
          acc.2 + (syncTopic (remote k) (acc.1 k)).2)

/-- The whole fetch/merge phase of `syncSite`: the runner applied to the
planned conversations starting from the current store and a zero
`totalNewMessages` counter. -/
def syncSiteTopics (remote : ConvKey → List ZulipMessage) (unreads : List UnreadStreamInfo)
    (s : TopicMap) : TopicMap × Nat :=
  runTopicsFold remote (plannedTopics unreads) (s, 0)

/-- Durable points at which execution of the merge step of `syncSite`
(`src/cli/sync.ts:92-99`) can be cut off.  `insertMessages` runs the
whole batch inside one `better-sqlite3` transaction, so a crash during
the insert rolls back to the state before it (`beforeInsert`);
`updateTopicLastMessageId` is a separate autocommit statement issued
afterwards, so a crash can also land between the two (`betweenOps`) or
after both (`completed`). -/
inductive MergeCut
  | beforeInsert
  | betweenOps
  | completed
deriving Repr, DecidableEq

/-- The durable topic state left behind when the merge step of `syncSite`
for one non-empty fetched batch is cut off at the given point. -/
def mergeCutState (st : TopicState) (fetched : List ZulipMessage) :
    MergeCut → TopicState
  | .beforeInsert => st
  | .betweenOps => ⟨st.lastMessageId, (insertMessages st.msgs fetched).1⟩
  | .completed => ⟨some (maxIdOf fetched), (insertMessages st.msgs fetched).1⟩

/-- An HTTP response as seen by `request` (`src/api/client.ts:33-69`). -/
structure HttpResponse where
  status : Nat
  body : String
deriving Repr, DecidableEq

/-- The `response.ok` predicate of the Fetch API: status in 200-299. -/
def responseOk (r : HttpResponse) : Bool :=
  decide (200 ≤ r.status) && decide (r.status ≤ 299)

/-- `request` of `src/api/client.ts:33-69` abstracted over the network:
`attempts` lists what successive fetch attempts of this request would
return (`none` a network failure, `some r` an HTTP response).  The
method body performs exactly one `fetch`; a rejected fetch or a non-2xx
status is thrown to the caller.  The second component counts the
attempts actually performed. -/
def request (attempts : List (Option HttpResponse)) :
    Except String (HttpResponse × Nat) :=
  match attempts with
  | [] => .error "fetch failed"
  | none :: _ => .error "fetch failed"
  | some r :: _ =>
      if responseOk r then .ok (r, 1)
      else .error ("Zulip API error " ++ toString r.status ++ ": " ++ r.body)

/-- The fetch/merge loop of `syncSite` (`src/cli/sync.ts:71-121`) with the
per-conversation network outcome exposed: `fetch k` is what
`client.getTopicMessages` returns for conversation `k` in this pass, or
the error it throws.  The loop body has no `try`/`catch`, so a thrown
error propagates out of `syncSite` at once: the driver returns the
store and count accumulated so far and the remaining planned
conversations are not visited (`updateSiteLastSync` is never reached). -/
def runTopics (fetch : ConvKey → Except String (List ZulipMessage)) :
    List ConvKey → TopicMap → Nat → Except (String × TopicMap × Nat) (TopicMap × Nat)
  | [], s, n => .ok (s, n)
  | k :: rest, s, n =>
      match fetch k with
      | .error e => .error (e, s, n)
      | .ok msgs =>
          let r := mergeFetched (s k) msgs
          runTopics fetch rest (updateTopic s k r.1) (n + r.2)

/-- The `for (const siteName of sites)` loop of `syncCommand`
(`src/cli/sync.ts:24-34`): `passOf s` is the outcome of `syncSite(s)`.
No error handling surrounds the call, so a throwing pass propagates to
the top-level command handler (which prints the error and exits with
status 1); the result is the list of sites actually attempted together
with the propagated error, if any. -/
def runSites (passOf : String → Except String Unit) :
    List String → List String × Option String
  | [] => ([], none)
  | s :: rest =>
      match passOf s with
      | .error e => ([s], some e)
      | .ok _ =>
          let r := runSites passOf rest
          (s :: r.1, r.2)

/-- A row of the `unread_messages` table (`schema.ts`). -/
structure UnreadRow where
  messageId : Nat
  streamId : Nat
  streamName : String
  topicName : String
deriving Repr, DecidableEq

/-- Stream subscription info from `register()` (`StreamInfo` in
`src/api/types.ts`). -/
structure StreamInfo where
  streamId : Nat
  name : String
deriving Repr, DecidableEq

/-- The register response as consumed by the CLI commands. -/
structure RegisterResult where
  streams : List UnreadStreamInfo
  subscriptions : List StreamInfo
deriving Repr, DecidableEq

/-- The `streamMap` built from the subscriptions
(`src/cli/unread.ts:34-38`): a JavaScript `Map` built with `set`, so a
later subscription with the same id wins; `streamMap.get(id) ||
'stream_<id>'` falls back when the id is absent or its name is the empty
string (JavaScript truthiness). -/
def streamNameOf (subs : List StreamInfo) (streamId : Nat) : String :=
  match subs.reverse.find? (fun sub => sub.streamId = streamId) with
  | some sub => if sub.name = "" then "stream_" ++ toString streamId else sub.name
  | none => "stream_" ++ toString streamId

/-- The rows written by `insertUnreadMessages`
(`src/storage/database.ts:382-409`): one row per unread message id of
each register entry, stream names resolved through the stream map. -/
def unreadRowsOf (reg : RegisterResult) : List UnreadRow :=
  reg.streams.flatMap (fun u =>
    u.unreadMessageIds.map (fun msgId =>
      ⟨msgId, u.streamId, streamNameOf reg.subscriptions u.streamId, u.topic⟩))

/-- The parts of the store the unread command can touch or must leave
alone: the `sites` rows (by name), the per-site `unread_messages` rows,
the per-conversation messages and watermarks, and the per-site
`sites.last_sync` column. -/
structure SiteDb where
  sites : List String
  unread : String → List UnreadRow
  topics : TopicMap
  lastSync : String → Option String

/-- `showUnreadForSite` of `src/cli/unread.ts:28-49` as a store
transformer, given the fresh register response: `getOrCreateSite`
appends a site row when the name is absent, then `clearUnreadMessages`
deletes the site's unread rows and `insertUnreadMessages` writes the
fresh set; everything after that only reads.  Messages, topics,
watermarks and `last_sync` are never touched. -/
def showUnreadForSite (siteName : String) (reg : RegisterResult) (db : SiteDb) : SiteDb :=
  { sites := if siteName ∈ db.sites then db.sites else db.sites ++ [siteName]
    unread := fun s => if s = siteName then unreadRowsOf reg else db.unread s
    topics := db.topics
    lastSync := db.lastSync }

/-- Remote histories arrive from Zulip in strictly increasing
message-id order. -/
def SortedIds (l : List ZulipMessage) : Prop :=
  l.Pairwise (fun m1 m2 => m1.id < m2.id)

/-- The watermark-soundness invariant of one topic row: the stored
watermark is the maximum stored message identifier, or NULL when no
messages are stored (spec §8, *Watermark soundness*). -/
def WatermarkSound (t : TopicState) : Prop :=
  (t.lastMessageId = none → t.msgs = []) ∧
  (∀ w, t.lastMessageId = some w → t.msgs ≠ [] ∧ maxIdOf t.msgs = w)

/-- Ordering of watermarks: NULL precedes everything; a set watermark may
only grow. -/
def wmLE : Option Nat → Option Nat → Prop
  | none, _ => True
  | some w, some w2 => w ≤ w2
  | some _, none => False

/-- Iterated sync passes from the empty store: each pass has its own
remote history and register response. -/
def runPasses (passes : List ((ConvKey → List ZulipMessage) × List UnreadStreamInfo)) :
    TopicMap :=
  passes.foldl (fun s p => (syncSiteTopics p.1 p.2 s).1) emptyTopicMap

/-- A message carrying only an identifier (test fixture). -/
def mkMsg (i : Nat) : ZulipMessage := ⟨i, "", "", "", 0⟩

/-- The remote history of the spec's pagination scenario: 1500 messages
with identifiers 1..1500. -/
def remote1500 : List ZulipMessage := (List.range 1500).map (fun i => mkMsg (i + 1))

/-- A fetch oracle for the failure-isolation scenario: conversation
(1, "general") throws, conversation (2, "lean4") has valid data. -/
def fetchCE : ConvKey → Except String (List ZulipMessage) :=
  fun k => if k = (1, "general") then .error "Get messages failed: boom" else .ok [mkMsg 6]

/-- A site-pass oracle for the multi-site scenario: site "alpha" fails
fatally, site "beta" would succeed. -/
def passCE : String → Except String Unit :=
  fun s => if s = "alpha" then .error "Register failed: invalid api key" else .ok ()

/-- Decidable form of "the message lies strictly beyond the anchor":
every message for the `oldest` anchor, messages with identifier above a
numeric anchor. -/
def beyond (a : MsgAnchor) (m : ZulipMessage) : Bool :=
  match a with
  | none => true
  | some x => decide (x < m.id)

theorem le_foldl_max_init (l : List Nat) (b : Nat) : b ≤ l.foldl max b := by
  induction l generalizing b with
  | nil => simp
  | cons x t ih => exact le_trans (le_max_left b x) (ih (max b x))

theorem le_foldl_max_of_mem {l : List Nat} {a : Nat} (h : a ∈ l) (b : Nat) :
    a ≤ l.foldl max b := by
  induction l generalizing b with
  | nil => cases h
  | cons x t ih =>
    rcases List.mem_cons.mp h with rfl | h2
    · exact le_trans (le_max_right b a) (le_foldl_max_init t (max b a))
    · exact ih h2 (max b x)

theorem foldl_max_le {l : List Nat} {b c : Nat} (hb : b ≤ c) (h : ∀ a ∈ l, a ≤ c) :
    l.foldl max b ≤ c := by
  induction l generalizing b with
  | nil => simpa using hb
  | cons x t ih =>
    exact ih (max_le hb (h x (by simp))) (fun a ha => h a (by simp [ha]))

theorem le_maxIdOf_of_mem {m : ZulipMessage} {l : List ZulipMessage} (h : m ∈ l) :
    m.id ≤ maxIdOf l :=
  le_foldl_max_of_mem (List.mem_map_of_mem (fun m2 => m2.id) h) 0

theorem maxIdOf_le {l : List ZulipMessage} {c : Nat} (h : ∀ m ∈ l, m.id ≤ c) :
    maxIdOf l ≤ c := by
  refine foldl_max_le (Nat.zero_le c) (fun a ha => ?_)
  rcases List.mem_map.mp ha with ⟨m, hm, rfl⟩
  exact h m hm

theorem maxIdOf_append (l1 l2 : List ZulipMessage) :
    maxIdOf (l1 ++ l2) = max (maxIdOf l1) (maxIdOf l2) := by
  refine le_antisymm (maxIdOf_le fun m hm => ?_) (max_le (maxIdOf_le fun m hm => ?_)
    (maxIdOf_le fun m hm => ?_))
  · rcases List.mem_append.mp hm with h | h
    · exact le_trans (le_maxIdOf_of_mem h) (le_max_left _ _)
    · exact le_trans (le_maxIdOf_of_mem h) (le_max_right _ _)
  · exact le_maxIdOf_of_mem (List.mem_append_left l2 hm)
  · exact le_maxIdOf_of_mem (List.mem_append_right l1 hm)

theorem foldl_insertStep_shift (t : List ZulipMessage) :
    ∀ (s : List ZulipMessage) (n : Nat),
      t.foldl insertStep (s, n) = ((insertMessages s t).1, n + (insertMessages s t).2) := by
  induction t with
  | nil => intro s n; simp [insertMessages]
  | cons m t ih =>
    intro s n
    simp only [insertMessages, List.foldl_cons, insertStep]
    by_cases h : s.any (fun m2 => m2.id = m.id)
    · simp only [h, if_pos]
      rw [ih s n, ih s 0]
      simp
    · simp only [h, if_neg, Bool.false_eq_true, not_false_iff]
      rw [ih (s ++ [m]) (n + 1), ih (s ++ [m]) (0 + 1)]
      refine Prod.ext rfl ?_
      simp only []
      omega

theorem insertMessages_cons (s : List ZulipMessage) (m : ZulipMessage)
    (t : List ZulipMessage) :
    insertMessages s (m :: t) =
      if s.any (fun m2 => m2.id = m.id)
      then insertMessages s t
      else ((insertMessages (s ++ [m]) t).1, (insertMessages (s ++ [m]) t).2 + 1) := by
  by_cases h : s.any (fun m2 => m2.id = m.id)
  · simp [insertMessages, List.foldl_cons, insertStep, h]
  · simp only [insertMessages, List.foldl_cons, insertStep, h, Bool.false_eq_true,
      not_false_iff, if_neg]
    rw [foldl_insertStep_shift t (s ++ [m]) 1]
    refine Prod.ext rfl ?_
    show 1 + (List.foldl insertStep (s ++ [m], 0) t).2 =
      (List.foldl insertStep (s ++ [m], 0) t).2 + 1
    omega

theorem insertMessages_extends (t : List ZulipMessage) :
    ∀ s : List ZulipMessage, ∃ ext, (insertMessages s t).1 = s ++ ext := by
  induction t with
  | nil => exact fun s => ⟨[], by simp [insertMessages]⟩
  | cons m t ih =>
    intro s
    rw [insertMessages_cons]
    by_cases h : s.any (fun m2 => m2.id = m.id)
    · simpa [h] using ih s
    · rcases ih (s ++ [m]) with ⟨ext, hext⟩
      refine ⟨m :: ext, ?_⟩
      simp [h, hext]

theorem any_id_eq_iff (s : List ZulipMessage) (i : Nat) :
    s.any (fun m2 => m2.id = i) = true ↔ i ∈ idsOf s := by
  simp only [List.any_eq_true, decide_eq_true_eq, idsOf, List.mem_map]

theorem mem_idsOf_insertMessages (t : List ZulipMessage) :
    ∀ (s : List ZulipMessage) (x : Nat),
      x ∈ idsOf (insertMessages s t).1 ↔ x ∈ idsOf s ∨ x ∈ idsOf t := by
  induction t with
  | nil => intro s x; simp [insertMessages, idsOf]
  | cons m t ih =>
    intro s x
    rw [insertMessages_cons]
    by_cases h : s.any (fun m2 => m2.id = m.id)
    · have hm : m.id ∈ idsOf s := (any_id_eq_iff s m.id).mp h
      simp only [h, if_pos]
      rw [ih s x]
      have hxm : x ∈ idsOf (m :: t) ↔ x = m.id ∨ x ∈ idsOf t := by
        simp [idsOf]
      rw [hxm]
      constructor
      · tauto
      · rintro (hs | rfl | ht) <;> tauto
    · simp only [h, Bool.false_eq_true, not_false_iff, if_neg]
      have hgoal : x ∈ idsOf ((insertMessages (s ++ [m]) t).1,
          (insertMessages (s ++ [m]) t).2 + 1).1 ↔ x ∈ idsOf (insertMessages (s ++ [m]) t).1 :=
        Iff.rfl
      rw [hgoal, ih (s ++ [m]) x]
      have h1 : x ∈ idsOf (s ++ [m]) ↔ x ∈ idsOf s ∨ x = m.id := by
        simp [idsOf]
      have h2 : x ∈ idsOf (m :: t) ↔ x = m.id ∨ x ∈ idsOf t := by
        simp [idsOf]
      rw [h1, h2]
      tauto

theorem insertMessages_all_present (t : List ZulipMessage) :
    ∀ s : List ZulipMessage, (∀ x ∈ idsOf t, x ∈ idsOf s) →
      insertMessages s t = (s, 0) := by
  induction t with
  | nil => intro s _; simp [insertMessages]
  | cons m t ih =>
    intro s hall
    rw [insertMessages_cons]
    have hm : m.id ∈ idsOf s := hall m.id (by simp [idsOf])
    have h : s.any (fun m2 => m2.id = m.id) = true := (any_id_eq_iff s m.id).mpr hm
    simp only [h, if_pos]
    refine ih s (fun x hx => hall x ?_)
    have : x ∈ idsOf (m :: t) ↔ x = m.id ∨ x ∈ idsOf t := by simp [idsOf]
    exact this.mpr (Or.inr hx)

theorem insertMessages_nodup (t : List ZulipMessage) :
    ∀ s : List ZulipMessage, (idsOf s).Nodup → (idsOf (insertMessages s t).1).Nodup := by
  induction t with
  | nil => intro s hs; simpa [insertMessages] using hs
  | cons m t ih =>
    intro s hs
    rw [insertMessages_cons]
    by_cases h : s.any (fun m2 => m2.id = m.id)
    · simpa [h] using ih s hs
    · simp only [h, Bool.false_eq_true, not_false_iff, if_neg]
      show (idsOf (insertMessages (s ++ [m]) t).1).Nodup
      refine ih (s ++ [m]) ?_
      have hnot : m.id ∉ idsOf s := fun hc => h ((any_id_eq_iff s m.id).mpr hc)
      have : idsOf (s ++ [m]) = idsOf s ++ [m.id] := by simp [idsOf]
      rw [this, List.nodup_append]
      exact ⟨hs, List.nodup_singleton _, by simpa using hnot⟩

theorem maxIdOf_cons (m : ZulipMessage) (t : List ZulipMessage) :
    maxIdOf (m :: t) = max m.id (maxIdOf t) := by
  have h : (m :: t) = [m] ++ t := rfl
  rw [h, maxIdOf_append]
  have h1 : maxIdOf [m] = m.id := by simp [maxIdOf, idsOf]
  rw [h1]

theorem maxIdOf_insertMessages (t : List ZulipMessage) :
    ∀ s : List ZulipMessage,
      maxIdOf (insertMessages s t).1 = max (maxIdOf s) (maxIdOf t) := by
  induction t with
  | nil => intro s; simp [insertMessages, maxIdOf, idsOf]
  | cons m t ih =>
    intro s
    rw [insertMessages_cons, maxIdOf_cons]
    by_cases h : s.any (fun m2 => m2.id = m.id)
    · have hm : m.id ∈ idsOf s := (any_id_eq_iff s m.id).mp h
      have hle : m.id ≤ maxIdOf s := by
        rcases List.mem_map.mp hm with ⟨m2, hm2, he⟩
        exact he ▸ le_maxIdOf_of_mem hm2
      simp only [h, if_pos, ih s]
      omega
    · simp only [h, Bool.false_eq_true, not_false_iff, if_neg]
      show maxIdOf (insertMessages (s ++ [m]) t).1 = _
      rw [ih (s ++ [m]), maxIdOf_append]
      have h1 : maxIdOf [m] = m.id := by simp [maxIdOf, idsOf]
      rw [h1]
      omega

theorem insertMessages_ne_nil (t : List ZulipMessage) (s : List ZulipMessage)
    (h : ¬(s = [] ∧ t = [])) : (insertMessages s t).1 ≠ [] := by
  rcases t with _ | ⟨m, t⟩
  · simp only [insertMessages, List.foldl_nil]
    intro hc
    exact h ⟨hc, rfl⟩
  · rw [insertMessages_cons]
    by_cases hany : s.any (fun m2 => m2.id = m.id)
    · have hne : s ≠ [] := by
        intro hc
        rw [hc] at hany
        simp at hany
      rcases insertMessages_extends t s with ⟨ext, hext⟩
      simp only [hany, if_pos, hext]
      intro hc
      exact hne (List.append_eq_nil.mp hc).1
    · rcases insertMessages_extends t (s ++ [m]) with ⟨ext, hext⟩
      simp only [hany, Bool.false_eq_true, not_false_iff, if_neg]
      show (insertMessages (s ++ [m]) t).1 ≠ []
      rw [hext]
      intro hc
      have := (List.append_eq_nil.mp hc).1
      simp at this

theorem insertMessages_disjoint (t : List ZulipMessage) :
    ∀ s : List ZulipMessage, (∀ x ∈ idsOf t, x ∉ idsOf s) → (idsOf t).Nodup →
      insertMessages s t = (s ++ t, t.length) := by
  induction t with
  | nil => intro s _ _; simp [insertMessages]
  | cons m t ih =>
    intro s hdisj hnd
    rw [insertMessages_cons]
    have hmem : m.id ∈ idsOf (m :: t) := by simp [idsOf]
    have hnot : m.id ∉ idsOf s := hdisj m.id hmem
    have h : ¬ s.any (fun m2 => m2.id = m.id) = true := fun hc =>
      hnot ((any_id_eq_iff s m.id).mp hc)
    simp only [h, Bool.false_eq_true, not_false_iff, if_neg]
    have hcons : idsOf (m :: t) = m.id :: idsOf t := by simp [idsOf]
    rw [hcons] at hnd
    have hnd2 : (idsOf t).Nodup := hnd.of_cons
    have hmt : m.id ∉ idsOf t := (List.nodup_cons.mp hnd).1
    rw [ih (s ++ [m]) ?_ hnd2]
    · simp
    · intro x hx
      have hx2 : x ∈ idsOf (m :: t) := by
        rw [hcons]
        exact List.mem_cons_of_mem _ hx
      have hxs : x ∉ idsOf s := hdisj x hx2
      have h1 : idsOf (s ++ [m]) = idsOf s ++ [m.id] := by simp [idsOf]
      rw [h1, List.mem_append]
      rintro (hc | hc)
      · exact hxs hc
      · rw [List.mem_singleton] at hc
        exact hmt (hc ▸ hx)

theorem goFetch_succ_none (remote : List ZulipMessage) (fuel : Nat)
    (acc : List ZulipMessage) (reqs : Nat) :
    goFetch remote (fuel + 1) none acc reqs =
      (if ((listMessages remote none batchSize).messages).isEmpty then (acc, reqs + 1)
       else if (listMessages remote none batchSize).foundNewest ||
           decide ((listMessages remote none batchSize).messages.length < batchSize) then
         (acc ++ (listMessages remote none batchSize).messages, reqs + 1)
       else
         goFetch remote fuel
           (some (((listMessages remote none batchSize).messages).getLastD dummyMessage).id)
           (acc ++ (listMessages remote none batchSize).messages) (reqs + 1)) := rfl

theorem goFetch_succ_some (remote : List ZulipMessage) (fuel x : Nat)
    (acc : List ZulipMessage) (reqs : Nat) :
    goFetch remote (fuel + 1) (some x) acc reqs =
      (if (((listMessages remote (some x) batchSize).messages).filter
            (fun m => x < m.id)).isEmpty then (acc, reqs + 1)
       else if (listMessages remote (some x) batchSize).foundNewest ||
           decide ((((listMessages remote (some x) batchSize).messages).filter
             (fun m => x < m.id)).length < batchSize) then
         (acc ++ ((listMessages remote (some x) batchSize).messages).filter
           (fun m => x < m.id), reqs + 1)
       else
         goFetch remote fuel
           (some ((((listMessages remote (some x) batchSize).messages).filter
             (fun m => x < m.id)).getLastD dummyMessage).id)
           (acc ++ ((listMessages remote (some x) batchSize).messages).filter
             (fun m => x < m.id)) (reqs + 1)) := rfl

theorem getLastD_mem {α : Type} (l : List α) (d : α) (h : l ≠ []) : l.getLastD d ∈ l := by
  induction l with
  | nil => exact absurd rfl h
  | cons y t ih =>
    rcases t with _ | ⟨z, t2⟩
    · simp
    · have : (y :: z :: t2).getLastD d = (z :: t2).getLastD d := by
        simp [List.getLastD]
      rw [this]
      exact List.mem_cons_of_mem y (ih (by simp))

theorem goFetch_acc (remote : List ZulipMessage) :
    ∀ (fuel : Nat) (a : MsgAnchor) (acc : List ZulipMessage) (reqs : Nat),
      ∃ t, (goFetch remote fuel a acc reqs).1 = acc ++ t := by
  intro fuel
  induction fuel with
  | zero => intro a acc reqs; exact ⟨[], by simp [goFetch]⟩
  | succ fuel ih =>
    intro a acc reqs
    cases a with
    | none =>
      rw [goFetch_succ_none]
      by_cases h1 : ((listMessages remote none batchSize).messages).isEmpty
      · rw [if_pos h1]; exact ⟨[], by simp⟩
      · rw [if_neg h1]
        by_cases h2 : (listMessages remote none batchSize).foundNewest ||
            decide ((listMessages remote none batchSize).messages.length < batchSize)
        · rw [if_pos h2]; exact ⟨(listMessages remote none batchSize).messages, rfl⟩
        · rw [if_neg h2]
          obtain ⟨t, ht⟩ := ih
            (some (((listMessages remote none batchSize).messages).getLastD dummyMessage).id)
            (acc ++ (listMessages remote none batchSize).messages) (reqs + 1)
          exact ⟨(listMessages remote none batchSize).messages ++ t, by rw [ht, List.append_assoc]⟩
    | some x =>
      rw [goFetch_succ_some]
      by_cases h1 : (((listMessages remote (some x) batchSize).messages).filter
          (fun m => x < m.id)).isEmpty
      · rw [if_pos h1]; exact ⟨[], by simp⟩
      · rw [if_neg h1]
        by_cases h2 : (listMessages remote (some x) batchSize).foundNewest ||
            decide ((((listMessages remote (some x) batchSize).messages).filter
              (fun m => x < m.id)).length < batchSize)
        · rw [if_pos h2]
          exact ⟨((listMessages remote (some x) batchSize).messages).filter
            (fun m => x < m.id), rfl⟩
        · rw [if_neg h2]
          obtain ⟨t, ht⟩ := ih
            (some ((((listMessages remote (some x) batchSize).messages).filter
              (fun m => x < m.id)).getLastD dummyMessage).id)
            (acc ++ ((listMessages remote (some x) batchSize).messages).filter
              (fun m => x < m.id)) (reqs + 1)
          exact ⟨((listMessages remote (some x) batchSize).messages).filter
            (fun m => x < m.id) ++ t, by rw [ht, List.append_assoc]⟩

theorem goFetch_mem_gt (remote : List ZulipMessage) :
    ∀ (fuel : Nat), ∀ (x b : Nat) (acc : List ZulipMessage) (reqs : Nat),
      b < x → (∀ m ∈ acc, b < m.id) →
      ∀ m ∈ (goFetch remote fuel (some x) acc reqs).1, b < m.id := by
  intro fuel
  induction fuel with
  | zero =>
    intro x b acc reqs _ hacc m hm
    exact hacc m (by simpa [goFetch] using hm)
  | succ fuel ih =>
    intro x b acc reqs hbx hacc m hm
    rw [goFetch_succ_some] at hm
    split at hm
    · exact hacc m hm
    · rename_i h1
      split at hm
      · rcases List.mem_append.mp hm with hmem | hmem
        · exact hacc m hmem
        · have := List.of_mem_filter hmem
          have hlt : x < m.id := by simpa using this
          omega
      · refine ih _ b _ (reqs + 1) ?_ ?_ m hm
        · have hLmem : (((listMessages remote (some x) batchSize).messages).filter
              (fun m2 => x < m2.id)).getLastD dummyMessage ∈
              ((listMessages remote (some x) batchSize).messages).filter
                (fun m2 => x < m2.id) := by
            refine getLastD_mem _ _ ?_
            intro hc
            rw [hc] at h1
            simp at h1
          have := List.of_mem_filter hLmem
          have hxL : x < ((((listMessages remote (some x) batchSize).messages).filter
              (fun m2 => x < m2.id)).getLastD dummyMessage).id := by simpa using this
          omega
        · intro m2 hm2
          rcases List.mem_append.mp hm2 with hmem | hmem
          · exact hacc m2 hmem
          · have := List.of_mem_filter hmem
            have hlt : x < m2.id := by simpa using this
            omega

theorem length_filter_le_of_imp {α : Type} (l : List α) (p q : α → Bool)
    (h : ∀ x ∈ l, p x → q x) :
    (l.filter p).length ≤ (l.filter q).length := by
  induction l with
  | nil => simp
  | cons y t ih =>
    have ht : (t.filter p).length ≤ (t.filter q).length :=
      ih (fun x hx hp => h x (List.mem_cons_of_mem y hx) hp)
    by_cases hp : p y
    · have hq : q y := h y (List.mem_cons_self y t) hp
      simp [List.filter_cons, hp, hq]
      omega
    · by_cases hq : q y
      · simp [List.filter_cons, hp, hq]
        omega
      · simpa [List.filter_cons, hp, hq] using ht

theorem length_filter_lt_of_imp {α : Type} (l : List α) (p q : α → Bool)
    (h : ∀ x ∈ l, p x → q x) (x0 : α) (hx0 : x0 ∈ l) (hq0 : q x0) (hp0 : ¬ p x0) :
    (l.filter p).length < (l.filter q).length := by
  induction l with
  | nil => cases hx0
  | cons y t ih =>
    have hmono : (t.filter p).length ≤ (t.filter q).length :=
      length_filter_le_of_imp t p q (fun x hx hp => h x (List.mem_cons_of_mem y hx) hp)
    rcases List.mem_cons.mp hx0 with rfl | hx0t
    · simp [List.filter_cons, hp0, hq0]
      omega
    · have ht : (t.filter p).length < (t.filter q).length :=
        ih (fun x hx hp => h x (List.mem_cons_of_mem y hx) hp) hx0t
      by_cases hp : p y
      · have hq : q y := h y (List.mem_cons_self y t) hp
        simp [List.filter_cons, hp, hq]
        omega
      · by_cases hq : q y
        · simp [List.filter_cons, hp, hq]
          omega
        · simpa [List.filter_cons, hp, hq] using ht

theorem length_le_filter_gt_add_one (x : Nat) (l : List ZulipMessage)
    (hall : ∀ m ∈ l, x ≤ m.id) (hs : SortedIds l) :
    l.length ≤ (l.filter (fun m => x < m.id)).length + 1 := by
  induction l with
  | nil => simp
  | cons m t ih =>
    rcases List.pairwise_cons.mp hs with ⟨hm, hst⟩
    by_cases hx : x < m.id
    · have ht : t.length ≤ (t.filter (fun m2 => x < m2.id)).length + 1 :=
        ih (fun m2 hm2 => hall m2 (List.mem_cons_of_mem m hm2)) hst
      simp only [List.filter_cons, List.length_cons]
      rw [if_pos (by simpa using hx)]
      simp only [List.length_cons]
      omega
    · have hxm : m.id = x :=
        le_antisymm (not_lt.mp hx) (hall m (List.mem_cons_self m t))
      have hfill : t.filter (fun m2 => x < m2.id) = t := by
        refine List.filter_eq_self.mpr (fun m2 hm2 => ?_)
        have := hm m2 hm2
        simp only [decide_eq_true_eq]
        omega
      simp only [List.filter_cons, List.length_cons]
      rw [if_neg (by simpa using hx), hfill]

theorem goFetch_covers (remote : List ZulipMessage) (hs : SortedIds remote) :
    ∀ (fuel : Nat), ∀ (a : MsgAnchor) (acc : List ZulipMessage) (reqs : Nat),
      (remote.filter (beyond a)).length < fuel →
      ∀ m ∈ remote, beyond a m = true →
        m.id ≤ maxIdOf (goFetch remote fuel a acc reqs).1 := by
  intro fuel
  induction fuel with
  | zero => intro a acc reqs hlt; exact absurd hlt (Nat.not_lt_zero _)
  | succ fuel ih =>
    intro a acc reqs hfuel m hm hbey
    cases a with
    | none =>
      rw [goFetch_succ_none]
      have hmsgs : (listMessages remote none batchSize).messages =
        remote.take (batchSize + 1) := rfl
      have hfnd : (listMessages remote none batchSize).foundNewest =
        decide ((remote.take (batchSize + 1)).length = remote.length) := rfl
      by_cases h1 : ((listMessages remote none batchSize).messages).isEmpty
      · exfalso
        have hnil : remote.take (batchSize + 1) = [] := by
          rw [← hmsgs]
          exact List.isEmpty_iff.mp h1
        have hrn : remote = [] := by
          rcases List.take_eq_nil_iff.mp hnil with h | h
          · exact absurd h (by simp [batchSize])
          · exact h
        simp [hrn] at hm
      · rw [if_neg h1]
        by_cases h2 : ((listMessages remote none batchSize).foundNewest ||
            decide ((listMessages remote none batchSize).messages.length < batchSize)) = true
        · rw [if_pos h2]
          have hall : (listMessages remote none batchSize).messages = remote := by
            rw [hmsgs]
            rw [Bool.or_eq_true] at h2
            rcases h2 with hfn | hshort
            · rw [hfnd] at hfn
              have hlen : (remote.take (batchSize + 1)).length = remote.length :=
                of_decide_eq_true hfn
              rw [List.length_take] at hlen
              exact List.take_of_length_le (by omega)
            · rw [hmsgs] at hshort
              have hlt2 : (remote.take (batchSize + 1)).length < batchSize :=
                of_decide_eq_true hshort
              rw [List.length_take] at hlt2
              refine List.take_of_length_le ?_
              rcases Nat.le_total remote.length (batchSize + 1) with hc | hc
              · exact hc
              · rw [Nat.min_eq_left (by omega)] at hlt2
                omega
          show m.id ≤ maxIdOf (acc ++ (listMessages remote none batchSize).messages)
          rw [maxIdOf_append, hall]
          exact le_trans (le_maxIdOf_of_mem hm) (le_max_right _ _)
        · rw [if_neg h2]
          have hLmem : ((listMessages remote none batchSize).messages).getLastD dummyMessage ∈
              (listMessages remote none batchSize).messages :=
            getLastD_mem _ _ (fun hc => h1 (by simp [hc]))
          have hLrem : ((listMessages remote none batchSize).messages).getLastD dummyMessage ∈
              remote := by
            rw [hmsgs] at hLmem
            exact (List.take_sublist _ _).subset hLmem
          by_cases hmL :
              ((((listMessages remote none batchSize).messages).getLastD dummyMessage).id) < m.id
          · refine ih (some _) (acc ++ (listMessages remote none batchSize).messages)
              (reqs + 1) ?_ m hm ?_
            · have hstrict : (remote.filter (beyond (some
                  ((((listMessages remote none batchSize).messages).getLastD
                    dummyMessage).id)))).length <
                  (remote.filter (beyond none)).length := by
                refine length_filter_lt_of_imp remote _ _ (fun y _ _ => rfl) _ hLrem rfl ?_
                simp [beyond]
              omega
            · simp only [beyond, decide_eq_true_eq]
              exact hmL
          · obtain ⟨t, ht⟩ := goFetch_acc remote fuel
              (some ((((listMessages remote none batchSize).messages).getLastD
                dummyMessage).id))
              (acc ++ (listMessages remote none batchSize).messages) (reqs + 1)
            show m.id ≤ maxIdOf (goFetch remote fuel _ _ _).1
            rw [ht, maxIdOf_append, maxIdOf_append]
            have hLle : ((((listMessages remote none batchSize).messages).getLastD
                dummyMessage).id) ≤ maxIdOf (listMessages remote none batchSize).messages :=
              le_maxIdOf_of_mem hLmem
            have hmle : m.id ≤ (((listMessages remote none batchSize).messages).getLastD
                dummyMessage).id := not_lt.mp hmL
            calc m.id ≤ maxIdOf (listMessages remote none batchSize).messages :=
                  le_trans hmle hLle
              _ ≤ max (maxIdOf acc) (maxIdOf (listMessages remote none batchSize).messages) :=
                  le_max_right _ _
              _ ≤ max (max (maxIdOf acc)
                    (maxIdOf (listMessages remote none batchSize).messages)) (maxIdOf t) :=
                  le_max_left _ _
    | some x =>
      have hbx : x < m.id := by simpa [beyond] using hbey
      rw [goFetch_succ_some]
      have hafter : (listMessages remote (some x) batchSize).messages =
          (remote.filter (fun m2 => x ≤ m2.id)).take
            (if (remote.filter (fun m2 => x ≤ m2.id)).any (fun m2 => m2.id = x)
             then batchSize + 1 else batchSize) := rfl
      have hfnd : (listMessages remote (some x) batchSize).foundNewest =
          decide ((listMessages remote (some x) batchSize).messages.length =
            (remote.filter (fun m2 => x ≤ m2.id)).length) := rfl
      set after := remote.filter (fun m2 => x ≤ m2.id) with hafterdef
      set cnt := (if after.any (fun m2 => m2.id = x) then batchSize + 1 else batchSize)
        with hcntdef
      set msgsR := (listMessages remote (some x) batchSize).messages with hmsgsdef
      set nm := msgsR.filter (fun m2 => x < m2.id) with hnmdef
      have hsubR : msgsR.Sublist after := by rw [hafter]; exact List.take_sublist _ _
      have hsubA : after.Sublist remote := by rw [hafterdef]; exact List.filter_sublist _
      have hsortA : SortedIds after := List.Pairwise.sublist hsubA hs
      have hsortR : SortedIds msgsR := List.Pairwise.sublist hsubR hsortA
      have hallR : ∀ y ∈ msgsR, x ≤ y.id := by
        intro y hy
        have hyA : y ∈ after := hsubR.subset hy
        rw [hafterdef] at hyA
        have := List.of_mem_filter hyA
        simpa using this
      have hcnt_ge : batchSize ≤ cnt := by
        rw [hcntdef]; split <;> omega
      have hb1000 : batchSize = 1000 := rfl
      have hmA : m ∈ after := by
        rw [hafterdef]
        exact List.mem_filter.mpr ⟨hm, by simpa using le_of_lt hbx⟩
      by_cases h1 : nm.isEmpty
      · exfalso
        have hnmnil : nm = [] := List.isEmpty_iff.mp h1
        by_cases hlen : after.length ≤ cnt
        · have hRA : msgsR = after := by rw [hafter]; exact List.take_of_length_le hlen
          have hmnm : m ∈ nm := by
            rw [hnmdef, hRA]
            exact List.mem_filter.mpr ⟨hmA, by simpa using hbx⟩
          rw [hnmnil] at hmnm
          simp at hmnm
        · push_neg at hlen
          have hlenR : msgsR.length = cnt := by
            rw [hafter, List.length_take]
            omega
          have hallx : ∀ y ∈ msgsR, y.id = x := by
            intro y hy
            have h1y : x ≤ y.id := hallR y hy
            by_contra hc
            have hc2 : x < y.id := by omega
            have hynm : y ∈ nm := by
              rw [hnmdef]
              exact List.mem_filter.mpr ⟨hy, by simpa using hc2⟩
            rw [hnmnil] at hynm
            simp at hynm
          have h0 : 0 < msgsR.length := by omega
          have h1l : 1 < msgsR.length := by omega
          have hpg := List.pairwise_iff_get.mp hsortR
          have hy0 := hallx (msgsR.get ⟨0, h0⟩) (msgsR.get_mem _ _)
          have hy1 := hallx (msgsR.get ⟨1, h1l⟩) (msgsR.get_mem _ _)
          have hlt01 := hpg ⟨0, h0⟩ ⟨1, h1l⟩ (by simp [Fin.mk_lt_mk])
          omega
      · rw [if_neg h1]
        by_cases h2 : ((listMessages remote (some x) batchSize).foundNewest ||
            decide (nm.length < batchSize)) = true
        · rw [if_pos h2]
          have hRA : msgsR = after := by
            rw [Bool.or_eq_true] at h2
            rcases h2 with hfn | hshort
            · rw [hfnd] at hfn
              have hlen2 : msgsR.length = after.length := of_decide_eq_true hfn
              rw [hafter, List.length_take] at hlen2
              rw [hafter]
              exact List.take_of_length_le (by omega)
            · have hshort2 : nm.length < batchSize := of_decide_eq_true hshort
              by_cases hlen : after.length ≤ cnt
              · rw [hafter]; exact List.take_of_length_le hlen
              · exfalso
                push_neg at hlen
                have hlenR : msgsR.length = cnt := by
                  rw [hafter, List.length_take]; omega
                have hcount : msgsR.length ≤ nm.length + 1 := by
                  have hc := length_le_filter_gt_add_one x msgsR hallR hsortR
                  rw [← hnmdef] at hc
                  exact hc
                have hcnteq : cnt = batchSize := by omega
                have hanyf : after.any (fun m2 => m2.id = x) = false := by
                  cases hb : after.any (fun m2 => m2.id = x) with
                  | false => rfl
                  | true =>
                    exfalso
                    rw [hcntdef, if_pos hb] at hcnteq
                    omega
                have hnmR : nm = msgsR := by
                  rw [hnmdef]
                  refine List.filter_eq_self.mpr (fun y hy => ?_)
                  have hxy : x ≤ y.id := hallR y hy
                  have hne : y.id ≠ x := by
                    intro hcx
                    have hyA : y ∈ after := hsubR.subset hy
                    have hany : after.any (fun m2 => m2.id = x) = true :=
                      List.any_eq_true.mpr ⟨y, hyA, by simpa using hcx⟩
                    rw [hany] at hanyf
                    cases hanyf
                  simpa using lt_of_le_of_ne hxy (Ne.symm hne)
                rw [hnmR] at hshort2
                omega
          have hmnm : m ∈ nm := by
            rw [hnmdef, hRA]
            exact List.mem_filter.mpr ⟨hmA, by simpa using hbx⟩
          show m.id ≤ maxIdOf (acc ++ nm)
          rw [maxIdOf_append]
          exact le_trans (le_maxIdOf_of_mem hmnm) (le_max_right _ _)
        · rw [if_neg h2]
          have hLnm : nm.getLastD dummyMessage ∈ nm :=
            getLastD_mem _ _ (fun hc => h1 (by simp [hc]))
          have hxL : x < (nm.getLastD dummyMessage).id := by
            have h' := hLnm
            rw [hnmdef] at h'
            have hp := List.of_mem_filter h'
            have h2p := of_decide_eq_true hp
            rw [← hnmdef] at h2p
            exact h2p
          have hLrem : nm.getLastD dummyMessage ∈ remote := by
            have h1' : nm.getLastD dummyMessage ∈ msgsR := by
              have h'' := hLnm
              rw [hnmdef] at h''
              exact (List.filter_sublist _).subset h''
            exact hsubA.subset (hsubR.subset h1')
          by_cases hmL : (nm.getLastD dummyMessage).id < m.id
          · refine ih (some ((nm.getLastD dummyMessage).id)) (acc ++ nm) (reqs + 1)
              ?_ m hm ?_
            · have hstrict :
                  (remote.filter (beyond (some ((nm.getLastD dummyMessage).id)))).length <
                  (remote.filter (beyond (some x))).length := by
                refine length_filter_lt_of_imp remote _ _ ?_ _ hLrem ?_ ?_
                · intro y _ hp
                  simp only [beyond, decide_eq_true_eq] at hp ⊢
                  omega
                · simp only [beyond, decide_eq_true_eq]
                  exact hxL
                · simp [beyond]
              omega
            · simp only [beyond, decide_eq_true_eq]
              exact hmL
          · obtain ⟨t, ht⟩ := goFetch_acc remote fuel (some ((nm.getLastD dummyMessage).id))
              (acc ++ nm) (reqs + 1)
            show m.id ≤ maxIdOf (goFetch remote fuel _ _ _).1
            rw [ht, maxIdOf_append, maxIdOf_append]
            have hLle : (nm.getLastD dummyMessage).id ≤ maxIdOf nm := le_maxIdOf_of_mem hLnm
            have hmle : m.id ≤ (nm.getLastD dummyMessage).id := not_lt.mp hmL
            calc m.id ≤ maxIdOf nm := le_trans hmle hLle
              _ ≤ max (maxIdOf acc) (maxIdOf nm) := le_max_right _ _
              _ ≤ max (max (maxIdOf acc) (maxIdOf nm)) (maxIdOf t) := le_max_left _ _

theorem getTopicMessages_empty_of_le (remote : List ZulipMessage) (w : Nat) (hw : w ≠ 0)
    (hall : ∀ m ∈ remote, m.id ≤ w) :
    getTopicMessages remote (some w) = ([], 1) := by
  unfold getTopicMessages
  simp only [initialAnchor]
  rw [if_neg hw]
  rw [goFetch_succ_some]
  have hafter : remote.filter (fun m2 => (w + 1) ≤ m2.id) = [] := by
    refine List.filter_eq_nil_iff.mpr (fun m hm => ?_)
    have := hall m hm
    simp only [decide_eq_true_eq]
    omega
  have hmsgs : (listMessages remote (some (w + 1)) batchSize).messages = [] := by
    show ((remote.filter (fun m2 => (w + 1) ≤ m2.id)).take
      (if (remote.filter (fun m2 => (w + 1) ≤ m2.id)).any (fun m2 => m2.id = (w + 1))
       then batchSize + 1 else batchSize)) = []
    rw [hafter]
    simp
  rw [hmsgs]
  simp

theorem syncTopic_eq (remote : List ZulipMessage) (st : TopicState) :
    syncTopic remote st =
      mergeFetched st (getTopicMessages remote (jsOrUndefined st.lastMessageId)).1 := rfl

theorem mergeFetched_nil (st : TopicState) : mergeFetched st [] = (st, 0) := rfl

theorem mergeFetched_of_ne (st : TopicState) (f : List ZulipMessage)
    (h : ¬ f.isEmpty = true) :
    mergeFetched st f =
      (⟨some (maxIdOf f), (insertMessages st.msgs f).1⟩, (insertMessages st.msgs f).2) := by
  unfold mergeFetched
  rw [if_neg h]

theorem jsOrUndefined_ne_zero (o : Option Nat) (w : Nat) (h : jsOrUndefined o = some w) :
    w ≠ 0 := by
  cases o with
  | none => simp [jsOrUndefined] at h
  | some v =>
    simp only [jsOrUndefined] at h
    by_cases hv : v = 0
    · rw [if_pos hv] at h
      cases h
    · rw [if_neg hv] at h
      cases h
      exact hv

theorem syncTopic_stable (remote : List ZulipMessage) (hs : SortedIds remote)
    (st : TopicState) :
    syncTopic remote (syncTopic remote st).1 = ((syncTopic remote st).1, 0) := by
  by_cases hemp : ((getTopicMessages remote (jsOrUndefined st.lastMessageId)).1).isEmpty
  · have heq : syncTopic remote st = (st, 0) := by
      rw [syncTopic_eq]
      have hnil : (getTopicMessages remote (jsOrUndefined st.lastMessageId)).1 = [] := by
        rcases hl : (getTopicMessages remote (jsOrUndefined st.lastMessageId)).1 with _ | _
        · rfl
        · rw [hl] at hemp; simp at hemp
      rw [hnil, mergeFetched_nil]
    rw [heq]
    exact heq
  · have hne : (getTopicMessages remote (jsOrUndefined st.lastMessageId)).1 ≠ [] :=
      fun hc => hemp (by simp [hc])
    have hst1 : (syncTopic remote st).1 =
        ⟨some (maxIdOf (getTopicMessages remote (jsOrUndefined st.lastMessageId)).1),
          (insertMessages st.msgs
            (getTopicMessages remote (jsOrUndefined st.lastMessageId)).1).1⟩ := by
      rw [syncTopic_eq, mergeFetched_of_ne _ _ hemp]
    cases hjs : jsOrUndefined st.lastMessageId with
    | none =>
      have hcov : ∀ m ∈ remote,
          m.id ≤ maxIdOf (getTopicMessages remote (jsOrUndefined st.lastMessageId)).1 := by
        intro m hm
        rw [hjs]
        have hmeas : (remote.filter (beyond none)).length < remote.length + 1 :=
          lt_of_le_of_lt (List.Sublist.length_le (List.filter_sublist _)) (Nat.lt_succ_self _)
        exact goFetch_covers remote hs (remote.length + 1) none [] 0 hmeas m hm rfl
      by_cases hW0 :
          maxIdOf (getTopicMessages remote (jsOrUndefined st.lastMessageId)).1 = 0
      · -- watermark becomes 0; truthiness sends the next fetch back to `oldest`,
        -- which refetches the same list, and the merge is then a no-op
        rw [hst1, syncTopic_eq]
        have hjs1 : jsOrUndefined (some (maxIdOf
            (getTopicMessages remote (jsOrUndefined st.lastMessageId)).1)) = none := by
          show (if maxIdOf (getTopicMessages remote (jsOrUndefined st.lastMessageId)).1 = 0
            then none
            else some (maxIdOf (getTopicMessages remote
              (jsOrUndefined st.lastMessageId)).1)) = none
          rw [if_pos hW0]
        show mergeFetched _ (getTopicMessages remote (jsOrUndefined (some _))).1 = _
        rw [hjs1, ← hjs]
        rw [mergeFetched_of_ne _ _ hemp]
        have hsub : ∀ y ∈ idsOf (getTopicMessages remote (jsOrUndefined st.lastMessageId)).1,
            y ∈ idsOf (insertMessages st.msgs
              (getTopicMessages remote (jsOrUndefined st.lastMessageId)).1).1 := by
          intro y hy
          exact (mem_idsOf_insertMessages _ st.msgs y).mpr (Or.inr hy)
        rw [insertMessages_all_present _ _ hsub]
      · rw [hst1, syncTopic_eq]
        have hjs1 : jsOrUndefined (some (maxIdOf
            (getTopicMessages remote (jsOrUndefined st.lastMessageId)).1)) =
            some (maxIdOf (getTopicMessages remote (jsOrUndefined st.lastMessageId)).1) := by
          show (if maxIdOf (getTopicMessages remote (jsOrUndefined st.lastMessageId)).1 = 0
            then none
            else some (maxIdOf (getTopicMessages remote
              (jsOrUndefined st.lastMessageId)).1)) = _
          rw [if_neg hW0]
        show mergeFetched _ (getTopicMessages remote (jsOrUndefined (some _))).1 = _
        rw [hjs1, getTopicMessages_empty_of_le remote _ hW0 hcov]
        exact mergeFetched_nil _
    | some w =>
      have hw0 : w ≠ 0 := jsOrUndefined_ne_zero _ _ hjs
      have hfg : (getTopicMessages remote (jsOrUndefined st.lastMessageId)).1 =
          (goFetch remote (remote.length + 1) (some (w + 1)) [] 0).1 := by
        rw [hjs]
        unfold getTopicMessages
        simp only [initialAnchor]
        rw [if_neg hw0]
      have hgt : ∀ y ∈ (getTopicMessages remote (jsOrUndefined st.lastMessageId)).1,
          w < y.id := by
        intro y hy
        rw [hfg] at hy
        exact goFetch_mem_gt remote (remote.length + 1) (w + 1) w [] 0
          (Nat.lt_succ_self w) (by simp) y hy
      have hWgt : w < maxIdOf (getTopicMessages remote (jsOrUndefined st.lastMessageId)).1 := by
        obtain ⟨y, hy⟩ := List.exists_mem_of_ne_nil _ hne
        exact lt_of_lt_of_le (hgt y hy) (le_maxIdOf_of_mem hy)
      have hW0 : maxIdOf (getTopicMessages remote (jsOrUndefined st.lastMessageId)).1 ≠ 0 := by
        omega
      have hcov : ∀ m ∈ remote,
          m.id ≤ maxIdOf (getTopicMessages remote (jsOrUndefined st.lastMessageId)).1 := by
        intro m hm
        by_cases hmw : w + 1 < m.id
        · have hmeas : (remote.filter (beyond (some (w + 1)))).length < remote.length + 1 :=
            lt_of_le_of_lt (List.Sublist.length_le (List.filter_sublist _)) (Nat.lt_succ_self _)
          have := goFetch_covers remote hs (remote.length + 1) (some (w + 1)) [] 0 hmeas m hm
            (by simpa [beyond] using hmw)
          rw [← hfg] at this
          exact this
        · omega
      rw [hst1, syncTopic_eq]
      have hjs1 : jsOrUndefined (some (maxIdOf
          (getTopicMessages remote (jsOrUndefined st.lastMessageId)).1)) =
          some (maxIdOf (getTopicMessages remote (jsOrUndefined st.lastMessageId)).1) := by
        show (if maxIdOf (getTopicMessages remote (jsOrUndefined st.lastMessageId)).1 = 0
          then none
          else some (maxIdOf (getTopicMessages remote
            (jsOrUndefined st.lastMessageId)).1)) = _
        rw [if_neg hW0]
      show mergeFetched _ (getTopicMessages remote (jsOrUndefined (some _))).1 = _
      rw [hjs1, getTopicMessages_empty_of_le remote _ hW0 hcov]
      exact mergeFetched_nil _

theorem maxIdOf_nil : maxIdOf [] = 0 := rfl

theorem wmLE_refl (o : Option Nat) : wmLE o o := by
  cases o with
  | none => trivial
  | some w => show w ≤ w; exact le_refl w

theorem wmLE_trans {o1 o2 o3 : Option Nat} (h1 : wmLE o1 o2) (h2 : wmLE o2 o3) :
    wmLE o1 o3 := by
  cases o1 with
  | none => trivial
  | some w1 =>
    cases o2 with
    | none => cases h1
    | some w2 =>
      cases o3 with
      | none => cases h2
      | some w3 =>
        show w1 ≤ w3
        exact le_trans h1 h2

theorem getTopicMessages_mem_gt (remote : List ZulipMessage) (w : Nat) (hw : w ≠ 0) :
    ∀ y ∈ (getTopicMessages remote (some w)).1, w < y.id := by
  intro y hy
  unfold getTopicMessages at hy
  simp only [initialAnchor] at hy
  rw [if_neg hw] at hy
  exact goFetch_mem_gt remote (remote.length + 1) (w + 1) w [] 0
    (Nat.lt_succ_self w) (by simp) y hy

theorem wm_le_maxIdOf_fetch (remote : List ZulipMessage) (w : Nat)
    (hne : (getTopicMessages remote (jsOrUndefined (some w))).1 ≠ []) :
    w ≤ maxIdOf (getTopicMessages remote (jsOrUndefined (some w))).1 := by
  by_cases hw : w = 0
  · subst hw
    exact Nat.zero_le _
  · have hjsw : jsOrUndefined (some w) = some w := by
      show (if w = 0 then none else some w) = some w
      rw [if_neg hw]
    rw [hjsw] at hne ⊢
    obtain ⟨y, hy⟩ := List.exists_mem_of_ne_nil _ hne
    exact le_of_lt (lt_of_lt_of_le (getTopicMessages_mem_gt remote w hw y hy)
      (le_maxIdOf_of_mem hy))

theorem syncTopic_sound (remote : List ZulipMessage) (st : TopicState)
    (h : WatermarkSound st) :
    WatermarkSound (syncTopic remote st).1 ∧
      wmLE st.lastMessageId (syncTopic remote st).1.lastMessageId := by
  by_cases hemp : ((getTopicMessages remote (jsOrUndefined st.lastMessageId)).1).isEmpty
  · have hnil : (getTopicMessages remote (jsOrUndefined st.lastMessageId)).1 = [] :=
      List.isEmpty_iff.mp hemp
    rw [syncTopic_eq, hnil, mergeFetched_nil]
    exact ⟨h, wmLE_refl _⟩
  · have hne : (getTopicMessages remote (jsOrUndefined st.lastMessageId)).1 ≠ [] :=
      fun hc => hemp (by simp [hc])
    have hle : maxIdOf st.msgs ≤
        maxIdOf (getTopicMessages remote (jsOrUndefined st.lastMessageId)).1 := by
      cases hlm : st.lastMessageId with
      | none =>
        have hmsgs : st.msgs = [] := h.1 hlm
        rw [hmsgs, maxIdOf_nil]
        exact Nat.zero_le _
      | some w =>
        have hmax : maxIdOf st.msgs = w := (h.2 w hlm).2
        rw [hmax]
        rw [hlm] at hne
        exact wm_le_maxIdOf_fetch remote w hne
    rw [syncTopic_eq, mergeFetched_of_ne _ _ hemp]
    constructor
    · constructor
      · intro hc
        cases hc
      · intro w2 hw2
        have hw2' : maxIdOf (getTopicMessages remote (jsOrUndefined st.lastMessageId)).1 = w2 :=
          Option.some.inj hw2
        constructor
        · exact insertMessages_ne_nil _ st.msgs (fun hp => hne hp.2)
        · rw [maxIdOf_insertMessages, max_eq_right hle, hw2']
    · cases hlm : st.lastMessageId with
      | none => trivial
      | some w =>
        show w ≤ maxIdOf (getTopicMessages remote (jsOrUndefined (some w))).1
        rw [hlm] at hne
        exact wm_le_maxIdOf_fetch remote w hne

theorem runTopicsFold_unchanged (remote : ConvKey → List ZulipMessage) :
    ∀ (ks : List ConvKey) (acc : TopicMap × Nat) (k : ConvKey), k ∉ ks →
      (runTopicsFold remote ks acc).1 k = acc.1 k := by
  intro ks
  induction ks with
  | nil => intro acc k _; rfl
  | cons k0 rest ih =>
    intro acc k hk
    have hk0 : k ≠ k0 := fun hc => hk (hc ▸ List.mem_cons_self k0 rest)
    have hkr : k ∉ rest := fun hc => hk (List.mem_cons_of_mem k0 hc)
    show (runTopicsFold remote rest _).1 k = acc.1 k
    rw [ih _ k hkr]
    show (if k = k0 then _ else acc.1 k) = acc.1 k
    rw [if_neg hk0]

theorem runTopicsFold_pointwise (remote : ConvKey → List ZulipMessage)
    (P : TopicState → TopicState → Prop)
    (hrefl : ∀ t, P t t)
    (htrans : ∀ t1 t2 t3, P t1 t2 → P t2 t3 → P t1 t3)
    (hstep : ∀ k st, P st (syncTopic (remote k) st).1) :
    ∀ (ks : List ConvKey) (s : TopicMap) (n : Nat) (k : ConvKey),
      P (s k) ((runTopicsFold remote ks (s, n)).1 k) := by
  intro ks
  induction ks with
  | nil => intro s n k; exact hrefl _
  | cons k0 rest ih =>
    intro s n k
    show P (s k) ((runTopicsFold remote rest
      (updateTopic s k0 (syncTopic (remote k0) (s k0)).1,
        n + (syncTopic (remote k0) (s k0)).2)).1 k)
    refine htrans _ _ _ ?_
      (ih (updateTopic s k0 (syncTopic (remote k0) (s k0)).1)
        (n + (syncTopic (remote k0) (s k0)).2) k)
    unfold updateTopic
    by_cases hk : k = k0
    · subst hk
      rw [if_pos rfl]
      exact hstep k (s k)
    · rw [if_neg hk]
      exact hrefl _

theorem runTopicsFold_stabilizes (remote : ConvKey → List ZulipMessage)
    (hs : ∀ k, SortedIds (remote k)) :
    ∀ (ks : List ConvKey) (s : TopicMap) (n : Nat), ∀ k ∈ ks,
      syncTopic (remote k) ((runTopicsFold remote ks (s, n)).1 k) =
        ((runTopicsFold remote ks (s, n)).1 k, 0) := by
  intro ks
  induction ks with
  | nil => intro s n k hk; cases hk
  | cons k0 rest ih =>
    intro s n k hk
    show syncTopic (remote k) ((runTopicsFold remote rest
        (updateTopic s k0 (syncTopic (remote k0) (s k0)).1,
          n + (syncTopic (remote k0) (s k0)).2)).1 k) =
      ((runTopicsFold remote rest
        (updateTopic s k0 (syncTopic (remote k0) (s k0)).1,
          n + (syncTopic (remote k0) (s k0)).2)).1 k, 0)
    by_cases hkr : k ∈ rest
    · exact ih _ _ k hkr
    · have hk0 : k = k0 := by
        rcases List.mem_cons.mp hk with h | h
        · exact h
        · exact absurd h hkr
      subst hk0
      rw [runTopicsFold_unchanged remote rest _ k hkr]
      show syncTopic (remote k)
          (if k = k then (syncTopic (remote k) (s k)).1 else s k) =
        ((if k = k then (syncTopic (remote k) (s k)).1 else s k), 0)
      rw [if_pos rfl]
      exact syncTopic_stable (remote k) (hs k) (s k)

theorem runTopicsFold_of_stable (remote : ConvKey → List ZulipMessage) :
    ∀ (ks : List ConvKey) (s t : TopicMap) (n : Nat),
      (∀ k, s k = t k) →
      (∀ k ∈ ks, syncTopic (remote k) (t k) = (t k, 0)) →
      (runTopicsFold remote ks (s, n)).2 = n ∧
        ∀ k, (runTopicsFold remote ks (s, n)).1 k = t k := by
  intro ks
  induction ks with
  | nil => intro s t n hpt _; exact ⟨rfl, hpt⟩
  | cons k0 rest ih =>
    intro s t n hpt hstab
    have hsk0 : syncTopic (remote k0) (s k0) = (t k0, 0) := by
      rw [hpt k0]
      exact hstab k0 (List.mem_cons_self k0 rest)
    show (runTopicsFold remote rest
        (updateTopic s k0 (syncTopic (remote k0) (s k0)).1,
          n + (syncTopic (remote k0) (s k0)).2)).2 = n ∧
      ∀ k, (runTopicsFold remote rest
        (updateTopic s k0 (syncTopic (remote k0) (s k0)).1,
          n + (syncTopic (remote k0) (s k0)).2)).1 k = t k
    rw [hsk0]
    have hpt2 : ∀ k, (updateTopic s k0 (t k0, 0).1) k = t k := by
      intro k
      unfold updateTopic
      by_cases hk : k = k0
      · subst hk
        rw [if_pos rfl]
      · rw [if_neg hk]
        exact hpt k
    exact ih (updateTopic s k0 (t k0, 0).1) t (n + (t k0, 0).2) hpt2
      (fun k hk => hstab k (List.mem_cons_of_mem k0 hk))

theorem syncTopic_wmLE (remote : List ZulipMessage) (st : TopicState) :
    wmLE st.lastMessageId (syncTopic remote st).1.lastMessageId := by
  by_cases hemp : ((getTopicMessages remote (jsOrUndefined st.lastMessageId)).1).isEmpty
  · rw [syncTopic_eq, List.isEmpty_iff.mp hemp, mergeFetched_nil]
    exact wmLE_refl _
  · have hne : (getTopicMessages remote (jsOrUndefined st.lastMessageId)).1 ≠ [] :=
      fun hc => hemp (by simp [hc])
    rw [syncTopic_eq, mergeFetched_of_ne _ _ hemp]
    cases hlm : st.lastMessageId with
    | none => trivial
    | some w =>
      show w ≤ maxIdOf (getTopicMessages remote (jsOrUndefined (some w))).1
      rw [hlm] at hne
      exact wm_le_maxIdOf_fetch remote w hne

theorem syncTopic_nodup (remote : List ZulipMessage) (st : TopicState)
    (h : (idsOf st.msgs).Nodup) : (idsOf (syncTopic remote st).1.msgs).Nodup := by
  by_cases hemp : ((getTopicMessages remote (jsOrUndefined st.lastMessageId)).1).isEmpty
  · rw [syncTopic_eq, List.isEmpty_iff.mp hemp, mergeFetched_nil]
    exact h
  · rw [syncTopic_eq, mergeFetched_of_ne _ _ hemp]
    exact insertMessages_nodup _ st.msgs h

/-- C3: after every sync pass, every conversation's stored watermark
(`topics.last_message_id`) equals the maximum message identifier stored
for that conversation — or NULL when no messages are stored — and is
never beyond what is persisted; moreover watermarks are monotonically
non-decreasing across passes.  Stated as preservation of the
`WatermarkSound` invariant (which holds in the initial empty store) by
`syncSiteTopics`, together with pointwise watermark growth. -/
theorem watermark_soundness_invariant
    (remote : ConvKey → List ZulipMessage) (unreads : List UnreadStreamInfo)
    (s : TopicMap) (h : ∀ k, WatermarkSound (s k)) :
    (∀ k, WatermarkSound ((syncSiteTopics remote unreads s).1 k)) ∧
    (∀ k, wmLE ((s k).lastMessageId)
      (((syncSiteTopics remote unreads s).1 k).lastMessageId)) := by
  have hpw := runTopicsFold_pointwise remote
    (fun t t' => (WatermarkSound t → WatermarkSound t') ∧
      wmLE t.lastMessageId t'.lastMessageId)
    (fun t => ⟨id, wmLE_refl _⟩)
    (fun t1 t2 t3 h1 h2 => ⟨fun hh => h2.1 (h1.1 hh), wmLE_trans h1.2 h2.2⟩)
    (fun k st => ⟨fun hh => (syncTopic_sound (remote k) st hh).1,
      syncTopic_wmLE (remote k) st⟩)
    (plannedTopics unreads) s 0
  exact ⟨fun k => (hpw k).1 (h k), fun k => (hpw k).2⟩

theorem watermark_soundness_invariant_witness :
    WatermarkSound ((syncSiteTopics (fun _ => [mkMsg 3]) [⟨1, "t", [3]⟩]
      emptyTopicMap).1 (1, "t")) :=
  (watermark_soundness_invariant (fun _ => [mkMsg 3]) [⟨1, "t", [3]⟩] emptyTopicMap
    (fun _ => ⟨fun _ => rfl, fun _ hw => Option.noConfusion hw⟩)).1 (1, "t")

/-- C8: running the per-site fetch/merge pass a second time immediately
after a pass, with the remote message set unchanged, inserts zero
additional messages and leaves every conversation's topic row (in
particular its watermark) exactly as it was after the first pass. -/
theorem sync_pass_idempotent
    (remote : ConvKey → List ZulipMessage) (hs : ∀ k, SortedIds (remote k))
    (unreads : List UnreadStreamInfo) (s0 : TopicMap) :
    (syncSiteTopics remote unreads (syncSiteTopics remote unreads s0).1).2 = 0 ∧
    ∀ k, (syncSiteTopics remote unreads (syncSiteTopics remote unreads s0).1).1 k =
      (syncSiteTopics remote unreads s0).1 k :=
  runTopicsFold_of_stable remote (plannedTopics unreads)
    ((syncSiteTopics remote unreads s0).1) ((syncSiteTopics remote unreads s0).1) 0
    (fun _ => rfl)
    (runTopicsFold_stabilizes remote hs (plannedTopics unreads) s0 0)

theorem sync_pass_idempotent_witness :
    (syncSiteTopics (fun _ => [mkMsg 4]) [⟨2, "u", [4]⟩]
      (syncSiteTopics (fun _ => [mkMsg 4]) [⟨2, "u", [4]⟩] emptyTopicMap).1).2 = 0 :=
  (sync_pass_idempotent (fun _ => [mkMsg 4])
    (fun _ => by simp [SortedIds]) [⟨2, "u", [4]⟩] emptyTopicMap).1

/-- C9: starting from the empty store, after any number of sync passes no
two rows stored for a conversation share a remote message identifier;
and re-inserting a batch whose identifiers are all already present
leaves the store unchanged and counts zero insertions. -/
theorem no_duplication
    (passes : List ((ConvKey → List ZulipMessage) × List UnreadStreamInfo)) (k : ConvKey)
    (stored batch : List ZulipMessage)
    (hpresent : ∀ x ∈ idsOf batch, x ∈ idsOf stored) :
    (idsOf ((runPasses passes) k).msgs).Nodup ∧
    insertMessages stored batch = (stored, 0) := by
  constructor
  · have hgen : ∀ (ps : List ((ConvKey → List ZulipMessage) × List UnreadStreamInfo))
        (s : TopicMap), (∀ k2, (idsOf (s k2).msgs).Nodup) →
        ∀ k2, (idsOf ((ps.foldl (fun s2 p => (syncSiteTopics p.1 p.2 s2).1) s) k2).msgs).Nodup := by
      intro ps
      induction ps with
      | nil => intro s h k2; exact h k2
      | cons p rest ih =>
        intro s h k2
        refine ih (syncSiteTopics p.1 p.2 s).1 ?_ k2
        intro k3
        have hpw := runTopicsFold_pointwise p.1
          (fun t t' => (idsOf t.msgs).Nodup → (idsOf t'.msgs).Nodup)
          (fun t => id) (fun t1 t2 t3 h1 h2 hh => h2 (h1 hh))
          (fun k4 st => syncTopic_nodup (p.1 k4) st)
          (plannedTopics p.2) s 0
        exact (hpw k3) (h k3)
    exact hgen passes emptyTopicMap (fun _ => by simp [emptyTopicMap, idsOf]) k
  · exact insertMessages_all_present batch stored hpresent

theorem no_duplication_witness :
    (idsOf ((runPasses [((fun _ => [mkMsg 1]), [⟨1, "t", [1]⟩])]) (1, "t")).msgs).Nodup ∧
    insertMessages [mkMsg 1] [mkMsg 1] = ([mkMsg 1], 0) :=
  no_duplication [((fun _ => [mkMsg 1]), [⟨1, "t", [1]⟩])] (1, "t")
    [mkMsg 1] [mkMsg 1] (by decide)

/-- C1 (divergence at the failing input): a conversation whose remote
history is messages 5 and 6 with stored watermark 5.  The claim requires
the incremental fetch to return exactly the messages with identifier
above 5, i.e. message 6; the code instead sets the anchor to 6 and then
filters `m.id > anchor`, dropping message 6 and returning nothing.  The
evaluation shows the omission: message 6 is a remote message with
identifier above the watermark, the history is correctly ordered, yet
the fetch returns the empty list. -/
theorem incremental_fetch_omits_boundary_successor :
    getTopicMessages [mkMsg 5, mkMsg 6] (some 5) = ([], 1) ∧
    mkMsg 6 ∈ [mkMsg 5, mkMsg 6] ∧ 5 < (mkMsg 6).id ∧
    SortedIds [mkMsg 5, mkMsg 6] := by
  refine ⟨by decide, by decide, by decide, ?_⟩
  simp [SortedIds, mkMsg]

/-- C2 counterexample: with stored state (watermark 5, message 5) and a
fetched batch containing message 7, cutting execution between the
committed `insertMessages` transaction and the separate
`updateTopicLastMessageId` statement leaves message 7 durably inserted
while the watermark still reads 5 — a state that is neither "nothing
happened" nor "insert plus watermark advance", so the claimed
all-or-nothing atomicity of the combined merge fails. -/
theorem merge_not_atomic_counterexample :
    (mergeCutState ⟨some 5, [mkMsg 5]⟩ [mkMsg 7] .betweenOps).msgs = [mkMsg 5, mkMsg 7] ∧
    (mergeCutState ⟨some 5, [mkMsg 5]⟩ [mkMsg 7] .betweenOps).lastMessageId = some 5 ∧
    mergeCutState ⟨some 5, [mkMsg 5]⟩ [mkMsg 7] .betweenOps ≠
      (⟨some 5, [mkMsg 5]⟩ : TopicState) ∧
    mergeCutState ⟨some 5, [mkMsg 5]⟩ [mkMsg 7] .betweenOps ≠
      (mergeFetched ⟨some 5, [mkMsg 5]⟩ [mkMsg 7]).1 := by decide

/-- C2 (amended): the batch insert itself is atomic — at every cut point
the stored rows are either untouched or the whole batch outcome — and
the watermark can never be observed advanced without the full batch
having been durably inserted; but the insert and the watermark advance
are two separate durable operations, so a completed run performs both
while a failure in between leaves the batch inserted with the watermark
not yet advanced. -/
theorem merge_watermark_safe (st : TopicState) (batch : List ZulipMessage) (cut : MergeCut)
    (hne : batch ≠ []) :
    (mergeCutState st batch .completed = (mergeFetched st batch).1) ∧
    ((mergeCutState st batch cut).msgs = st.msgs ∨
      (mergeCutState st batch cut).msgs = (insertMessages st.msgs batch).1) ∧
    ((mergeCutState st batch cut).lastMessageId ≠ st.lastMessageId →
      mergeCutState st batch cut = (mergeFetched st batch).1) := by
  have hemp : ¬ batch.isEmpty = true := fun hc => hne (List.isEmpty_iff.mp hc)
  refine ⟨?_, ?_, ?_⟩
  · rw [mergeFetched_of_ne _ _ hemp]
    rfl
  · cases cut with
    | beforeInsert => exact Or.inl rfl
    | betweenOps => exact Or.inr rfl
    | completed => exact Or.inr rfl
  · intro hwm
    cases cut with
    | beforeInsert => exact absurd rfl hwm
    | betweenOps => exact absurd rfl hwm
    | completed =>
      rw [mergeFetched_of_ne _ _ hemp]
      rfl

theorem merge_watermark_safe_witness :
    mergeCutState ⟨none, []⟩ [mkMsg 1] .completed =
      (mergeFetched ⟨none, []⟩ [mkMsg 1]).1 :=
  (merge_watermark_safe ⟨none, []⟩ [mkMsg 1] .completed (by decide)).1

/-- C4 counterexample: a request whose first attempt is a 500 response
and whose second attempt would succeed.  The claim requires the client
to retry with backoff, so the request should succeed on the second
attempt; `request` performs exactly one fetch and throws the 500 as an
error immediately, never consulting the second attempt. -/
theorem request_no_retry_counterexample :
    request [some ⟨500, "server error"⟩, some ⟨200, "ok"⟩] =
      .error "Zulip API error 500: server error" ∧
    responseOk ⟨200, "ok"⟩ = true := by
  exact ⟨rfl, rfl⟩

/-- C4 (amended): the Remote Client performs no retry at all — the
outcome of a request depends only on the first attempt, any later
attempt is never consulted, and a successful request always used exactly
one attempt; a network failure or non-2xx status is propagated to the
caller immediately. -/
theorem request_single_attempt (a : Option HttpResponse)
    (rest : List (Option HttpResponse)) :
    request (a :: rest) = request [a] ∧
    (∀ r n, request (a :: rest) = .ok (r, n) → n = 1) := by
  constructor
  · cases a with
    | none => rfl
    | some r => rfl
  · intro r n h
    cases a with
    | none => simp [request] at h
    | some r2 =>
      simp only [request] at h
      by_cases hok : responseOk r2
      · rw [if_pos hok] at h
        exact ((Prod.mk.injEq _ _ _ _).mp (Except.ok.inj h)).2.symm
      · rw [if_neg hok] at h
        exact Except.noConfusion h

theorem request_single_attempt_witness : (1 : Nat) = 1 :=
  (request_single_attempt (some ⟨200, "ok"⟩) []).2 ⟨200, "ok"⟩ 1 rfl

/-- C5 counterexample: a pass planned over conversations (1, "general")
and (2, "lean4"), where fetching the first throws and the second has
valid data.  The claim requires the failure to be recorded and the pass
to continue so that (2, "lean4") is still fully synced; instead the
exception aborts the pass with the store exactly as it was — the second
conversation is never attempted and stays empty with a NULL
watermark. -/
theorem topic_failure_aborts_pass :
    runTopics fetchCE [(1, "general"), (2, "lean4")] emptyTopicMap 0 =
      .error ("Get messages failed: boom", emptyTopicMap, 0) ∧
    fetchCE (2, "lean4") = .ok [mkMsg 6] ∧
    (emptyTopicMap (2, "lean4")).msgs = [] ∧
    (emptyTopicMap (2, "lean4")).lastMessageId = none := by
  exact ⟨rfl, rfl, rfl, rfl⟩

/-- C5 (amended): the per-topic loop of `syncSite` has no error
handling: the first conversation whose fetch throws aborts the whole
site pass at once, returning the store and insert count accumulated so
far; the failing conversation and every later planned conversation are
not merged in that pass. -/
theorem topic_failure_aborts_pass_amended
    (fetch : ConvKey → Except String (List ZulipMessage))
    (k : ConvKey) (rest : List ConvKey) (s : TopicMap) (n : Nat) (e : String)
    (hk : fetch k = .error e) :
    runTopics fetch (k :: rest) s n = .error (e, s, n) := by
  unfold runTopics
  rw [hk]

theorem topic_failure_aborts_pass_amended_witness :
    runTopics (fun _ => .error "e") [(1, "t")] emptyTopicMap 0 =
      .error ("e", emptyTopicMap, 0) :=
  topic_failure_aborts_pass_amended (fun _ => .error "e") (1, "t") [] emptyTopicMap 0 "e" rfl

/-- C6 counterexample: a sync requested over sites "alpha" and "beta"
where "alpha" fails fatally and "beta" would succeed.  The claim
requires all sites to be attempted; instead the error thrown by the
first site's pass propagates out of `syncCommand`, so only "alpha" is
attempted and "beta" is skipped. -/
theorem site_failure_aborts_command :
    runSites passCE ["alpha", "beta"] =
      (["alpha"], some "Register failed: invalid api key") ∧
    passCE "beta" = .ok () := by
  exact ⟨rfl, rfl⟩

/-- C6 (amended): sites are attempted sequentially until the first
failing pass; when every pass succeeds all requested sites are attempted
and the operation succeeds, while the first failure propagates
immediately (the whole operation is reported as failed) and the
remaining sites are not attempted. -/
theorem multi_site_first_failure (passOf : String → Except String Unit) :
    (∀ sites, (∀ s ∈ sites, passOf s = .ok ()) →
      runSites passOf sites = (sites, none)) ∧
    (∀ pre s rest e, (∀ x ∈ pre, passOf x = .ok ()) → passOf s = .error e →
      runSites passOf (pre ++ s :: rest) = (pre ++ [s], some e)) := by
  constructor
  · intro sites
    induction sites with
    | nil => intro _; rfl
    | cons s0 rest ih =>
      intro hall
      unfold runSites
      rw [hall s0 (List.mem_cons_self s0 rest)]
      show ((s0 :: (runSites passOf rest).1, (runSites passOf rest).2) :
        List String × Option String) = (s0 :: rest, none)
      rw [ih (fun x hx => hall x (List.mem_cons_of_mem s0 hx))]
  · intro pre
    induction pre with
    | nil =>
      intro s rest e _ hs
      show runSites passOf (s :: rest) = ([s], some e)
      unfold runSites
      rw [hs]
    | cons p0 rest2 ih =>
      intro s rest e hpre hs
      show runSites passOf (p0 :: (rest2 ++ s :: rest)) = (p0 :: (rest2 ++ [s]), some e)
      unfold runSites
      rw [hpre p0 (List.mem_cons_self p0 rest2)]
      show ((p0 :: (runSites passOf (rest2 ++ s :: rest)).1,
        (runSites passOf (rest2 ++ s :: rest)).2) : List String × Option String) =
        (p0 :: (rest2 ++ [s]), some e)
      rw [ih s rest e (fun x hx => hpre x (List.mem_cons_of_mem p0 hx)) hs]

theorem multi_site_first_failure_witness :
    runSites (fun _ => .error "boom") ([] ++ "a" :: []) = ([] ++ ["a"], some "boom") :=
  (multi_site_first_failure (fun _ => .error "boom")).2 [] "a" [] "boom"
    (fun x hx => absurd hx (List.not_mem_nil x)) rfl

set_option maxRecDepth 100000 in
/-- C7: for a conversation with exactly 1500 remote messages
(identifiers 1..1500) and the fixed page size of 1000, a sync from an
empty watermark issues exactly two paginated requests, fetches and
stores all 1500 messages, and leaves the watermark at 1500. -/
theorem sync_1500_two_requests :
    (getTopicMessages remote1500 none).2 = 2 ∧
    (getTopicMessages remote1500 none).1 = remote1500 ∧
    syncTopic remote1500 ⟨none, []⟩ = (⟨some 1500, remote1500⟩, 1500) := by
  have hfetch : getTopicMessages remote1500 none = (remote1500, 2) := rfl
  have hlen : remote1500.length = 1500 := by simp [remote1500]
  refine ⟨by rw [hfetch], by rw [hfetch], ?_⟩
  rw [syncTopic_eq]
  show mergeFetched ⟨none, []⟩ (getTopicMessages remote1500 none).1 = _
  rw [hfetch]
  show mergeFetched ⟨none, []⟩ remote1500 = _
  have hne : ¬ remote1500.isEmpty = true := by
    intro hc
    rw [List.isEmpty_iff.mp hc] at hlen
    simp at hlen
  rw [mergeFetched_of_ne _ _ hne]
  have hnodup : (idsOf remote1500).Nodup := by
    have hids : idsOf remote1500 = (List.range 1500).map (fun i => i + 1) := by
      simp only [remote1500, idsOf, List.map_map]
      rfl
    rw [hids]
    exact (List.nodup_range 1500).map (fun a b hab => by omega)
  have hins : insertMessages [] remote1500 = (remote1500, 1500) := by
    rw [insertMessages_disjoint remote1500 [] (fun x hx => by simp [idsOf]) hnodup]
    rw [List.nil_append, hlen]
  have hmax : maxIdOf remote1500 = 1500 := by
    refine le_antisymm (maxIdOf_le ?_) ?_
    · intro m hm
      simp only [remote1500, List.mem_map, List.mem_range] at hm
      rcases hm with ⟨i, hi, rfl⟩
      show i + 1 ≤ 1500
      omega
    · have hmem : mkMsg 1500 ∈ remote1500 := by
        simp only [remote1500, List.mem_map, List.mem_range]
        exact ⟨1499, by omega, rfl⟩
      exact le_maxIdOf_of_mem hmem
  show ((⟨some (maxIdOf remote1500), (insertMessages [] remote1500).1⟩ : TopicState),
    (insertMessages [] remote1500).2) = _
  rw [hins, hmax]

/-- C10: the unread summary command is not read-only on the local store:
for every site name, register response and store state, it appends a
site row when the name is absent, and replaces the site's persisted
unread rows with the set computed from the fresh register response
(discarding whatever snapshot was there), while the stored messages,
topics, watermarks and the site's last-sync timestamp are left exactly
unchanged, as are other sites' unread rows. -/
theorem unread_command_not_readonly (siteName : String) (reg : RegisterResult)
    (db : SiteDb) :
    (showUnreadForSite siteName reg db).sites =
      (if siteName ∈ db.sites then db.sites else db.sites ++ [siteName]) ∧
    siteName ∈ (showUnreadForSite siteName reg db).sites ∧
    (∀ s, (showUnreadForSite siteName reg db).unread s =
      (if s = siteName then unreadRowsOf reg else db.unread s)) ∧
    (showUnreadForSite siteName reg db).topics = db.topics ∧
    (showUnreadForSite siteName reg db).lastSync = db.lastSync := by
  refine ⟨rfl, ?_, fun s => rfl, rfl, rfl⟩
  show siteName ∈ (if siteName ∈ db.sites then db.sites else db.sites ++ [siteName])
  by_cases h : siteName ∈ db.sites
  · rw [if_pos h]
    exact h
  · rw [if_neg h]
    exact List.mem_append_right _ (List.mem_singleton.mpr rfl)
